import Mathlib

/-!
Verification of the trend-line curve-walking core of the `curve-apps`
repository (`curve_apps/utils.py`, `curve_apps/trend_lines/params.py`,
`curve_apps/trend_lines/driver.py`).

The embedding models the numpy floating-point code with exact arithmetic:
point coordinates and configuration values are rationals, derived geometric
quantities (norms, angles, walker scores) live in `ℝ`.  The Delaunay
triangulation is an external library call (scipy); following the spec's
interface section, every function that consumes its result takes the
simplex list as an argument.  Python exceptions (`ValueError`) are modelled
with `Except String`.  The recursion of `walk_edges` is modelled with an
explicit fuel argument; `find_curves` supplies fuel equal to the number of
points, which is shown sufficient (the walker consumes one unvisited point
per step).  `np.argsort` of the edge distances is modelled by a stable
insertion sort whose comparator tests squared distances; since `Real.sqrt`
is monotone this is the same comparator as comparing Euclidean lengths.
-/

namespace CurveApps

/-! ## Planar vectors over ℚ -/

/-- Coordinates of point `i` (row `vertices[i]` of the numpy array). -/
def vpos (vertices : List (ℚ × ℚ)) (i : ℕ) : ℚ × ℚ :=
  vertices.getD i (0, 0)

/-- Componentwise difference `a - b` of two planar points. -/
def vsub (a b : ℚ × ℚ) : ℚ × ℚ :=
  (a.1 - b.1, a.2 - b.2)

/-- Planar dot product. -/
def dotQ (a b : ℚ × ℚ) : ℚ :=
  a.1 * b.1 + a.2 * b.2

/-- Squared Euclidean norm of a planar vector (rational, hence decidable). -/
def norm2 (v : ℚ × ℚ) : ℚ :=
  v.1 ^ 2 + v.2 ^ 2

/-- Euclidean norm (`np.linalg.norm`) of a planar vector. -/
noncomputable def normV (v : ℚ × ℚ) : ℝ :=
  Real.sqrt ((norm2 v : ℚ) : ℝ)

/-- Squared length of the edge `e` (pair of point indices). -/
def dist2 (vertices : List (ℚ × ℚ)) (e : ℕ × ℕ) : ℚ :=
  norm2 (vsub (vpos vertices e.1) (vpos vertices e.2))

/-- Euclidean length of the edge `e`, as in `np.linalg.norm(vertices[edges[:,0]] -
vertices[edges[:,1]], axis=1)`. -/
noncomputable def edgeLen (vertices : List (ℚ × ℚ)) (e : ℕ × ℕ) : ℝ :=
  Real.sqrt ((dist2 vertices e : ℚ) : ℝ)

/-! ## Detection parameters (`trend_lines/params.py`)

`TrendLineDetectionParameters` is a plain pydantic model: every field is an
unconstrained float / int (no range validator), so construction is total. -/

structure TrendLineDetectionParameters where
  azimuth : Option ℚ := none
  azimuth_tol : Option ℚ := none
  damping : ℚ := 0
  min_edges : ℕ := 1
  max_distance : Option ℚ := none
deriving Repr, DecidableEq

/-- The pydantic defaults of `TrendLineDetectionParameters()`. -/
def defaultParams : TrendLineDetectionParameters := {}

/-! ## A stable comparison sort (models `np.unique`'s row sort / `np.argsort`) -/

/-- Insert `a` into `l` in front of the first element `b` with `¬ le a b`
missing; standard insertion step of insertion sort. -/
def insertSorted (le : α → α → Bool) (a : α) : List α → List α
  | [] => [a]
  | b :: bs => if le a b then a :: b :: bs else b :: insertSorted le a bs

/-- Insertion sort by the boolean comparator `le`. -/
def sortBy (le : α → α → Bool) : List α → List α
  | [] => []
  | a :: as => insertSorted le a (sortBy le as)

theorem insertSorted_perm (le : α → α → Bool) (a : α) :
    ∀ l : List α, (insertSorted le a l).Perm (a :: l)
  | [] => List.Perm.refl _
  | b :: bs => by
    unfold insertSorted
    by_cases h : le a b = true
    · simp [h]
    · simp only [h]
      exact ((insertSorted_perm le a bs).cons b).trans (List.Perm.swap a b bs)

theorem sortBy_perm (le : α → α → Bool) : ∀ l : List α, (sortBy le l).Perm l
  | [] => List.Perm.refl _
  | a :: as =>
    (insertSorted_perm le a (sortBy le as)).trans ((sortBy_perm le as).cons a)

theorem mem_sortBy {le : α → α → Bool} {l : List α} {a : α} :
    a ∈ sortBy le l ↔ a ∈ l :=
  (sortBy_perm le l).mem_iff

theorem insertSorted_pairwise {le : α → α → Bool}
    (total : ∀ a b, le a b = true ∨ le b a = true)
    (tr : ∀ a b c, le a b = true → le b c = true → le a c = true) {a : α} :
    ∀ {l : List α}, l.Pairwise (fun x y => le x y = true) →
      (insertSorted le a l).Pairwise (fun x y => le x y = true) := by
  intro l
  induction l with
  | nil => intro _; simp [insertSorted]
  | cons b bs ih =>
    intro hp
    rw [List.pairwise_cons] at hp
    unfold insertSorted
    by_cases h : le a b = true
    · simp only [h, if_true]
      refine List.pairwise_cons.2 ⟨?_, List.pairwise_cons.2 hp⟩
      intro c hc
      rcases List.mem_cons.1 hc with rfl | hc
      · exact h
      · exact tr a b c h (hp.1 c hc)
    · simp only [h, if_false]
      refine List.pairwise_cons.2 ⟨?_, ih hp.2⟩
      intro c hc
      have hc' := (insertSorted_perm le a bs).mem_iff.1 hc
      rcases List.mem_cons.1 hc' with rfl | hc''
      · exact Or.resolve_left (total c b) (by simpa using h)
      · exact hp.1 c hc''

theorem sortBy_pairwise {le : α → α → Bool}
    (total : ∀ a b, le a b = true ∨ le b a = true)
    (tr : ∀ a b c, le a b = true → le b c = true → le a c = true) :
    ∀ l : List α, (sortBy le l).Pairwise (fun x y => le x y = true)
  | [] => List.Pairwise.nil
  | a :: as => insertSorted_pairwise total tr (sortBy_pairwise total tr as)

/-! ## Classical boolean decision (used where numpy compares real quantities) -/

/-- Boolean truth value of a proposition, by classical choice.  Used to model
numpy boolean arrays over real-valued comparisons. -/
noncomputable def pdec (p : Prop) : Bool :=
  @decide p (Classical.propDecidable p)

theorem pdec_eq_true_iff {p : Prop} : pdec p = true ↔ p := by
  unfold pdec
  exact @decide_eq_true_iff p (Classical.propDecidable p)

theorem pdec_true {p : Prop} (h : p) : pdec p = true :=
  pdec_eq_true_iff.2 h

theorem pdec_false {p : Prop} (h : ¬p) : pdec p = false := by
  cases hb : pdec p
  · rfl
  · exact absurd (pdec_eq_true_iff.1 hb) h

/-! ## Orientation filter (`filter_segments_orientation`, utils.py 283-304)

The azimuth filter is the one piece of the pipeline whose inputs are
genuinely real-valued (the scenario of §8 places points at sines/cosines of
angles), so it is stated over real coordinates; `find_curves` applies it to
the rational coordinates cast into `ℝ`. -/

/-- Coordinates of point `i` of a real-valued vertex list. -/
def rpos (vertices : List (ℝ × ℝ)) (i : ℕ) : ℝ × ℝ :=
  vertices.getD i (0, 0)

/-- `np.deg2rad`. -/
noncomputable def deg2rad (x : ℝ) : ℝ :=
  x * Real.pi / 180

/-- Direction vector of edge `e`: `vertices[e.2] - vertices[e.1]`. -/
def segDir (vertices : List (ℝ × ℝ)) (e : ℕ × ℕ) : ℝ × ℝ :=
  ((rpos vertices e.2).1 - (rpos vertices e.1).1,
   (rpos vertices e.2).2 - (rpos vertices e.1).2)

/-- Angle between the direction of edge `e` and the unit vector at `azimuth`
degrees clockwise from north: `arccos(dot(vector, test_vector)/norm(vector))`. -/
noncomputable def segAngle (vertices : List (ℝ × ℝ)) (e : ℕ × ℕ) (azimuth : ℚ) : ℝ :=
  Real.arccos
    (((segDir vertices e).1 * Real.sin (deg2rad (azimuth : ℝ)) +
        (segDir vertices e).2 * Real.cos (deg2rad (azimuth : ℝ))) /
      Real.sqrt ((segDir vertices e).1 ^ 2 + (segDir vertices e).2 ^ 2))

/-- Keep condition of the orientation filter:
`|angle| < deg2rad(tol) ∨ |angle - π| < deg2rad(tol)`. -/
def segKeep (vertices : List (ℝ × ℝ)) (e : ℕ × ℕ) (azimuth azimuth_tol : ℚ) : Prop :=
  |segAngle vertices e azimuth| < deg2rad (azimuth_tol : ℝ) ∨
    |segAngle vertices e azimuth - Real.pi| < deg2rad (azimuth_tol : ℝ)

/-- Boolean keep-array of the orientation filter (utils.py 283-304). -/
noncomputable def filter_segments_orientation (vertices : List (ℝ × ℝ))
    (edges : List (ℕ × ℕ)) (azimuth azimuth_tol : ℚ) : List Bool :=
  edges.map (fun e => pdec (segKeep vertices e azimuth azimuth_tol))

/-- Boolean-mask row selection `edges[ind]`. -/
def mask_filter : List α → List Bool → List α
  | [], _ => []
  | _ :: _, [] => []
  | a :: as, b :: bs => if b then a :: mask_filter as bs else mask_filter as bs

/-- Exception propagation (the implicit control flow of a Python call chain). -/
def bindE (x : Except String α) (f : α → Except String β) : Except String β :=
  match x with
  | .error s => .error s
  | .ok a => f a

@[simp] theorem bindE_error {f : α → Except String β} {s : String} :
    bindE (.error s) f = .error s := rfl

@[simp] theorem bindE_ok {f : α → Except String β} {a : α} :
    bindE (.ok a) f = f a := rfl

/-! ## Edge Candidate Builder (find_curves, utils.py 167-191) -/

/-- The three edges of each simplex, as stacked by
`np.vstack((simplices[:, :2], simplices[:, 1:], simplices[:, ::2]))`. -/
def raw_edges (simplices : List (ℕ × ℕ × ℕ)) : List (ℕ × ℕ) :=
  simplices.map (fun s => (s.1, s.2.1)) ++ simplices.map (fun s => (s.2.1, s.2.2)) ++
    simplices.map (fun s => (s.1, s.2.2))

/-- Row-wise `np.sort`: canonicalize an edge as an ascending index pair. -/
def canonEdge (e : ℕ × ℕ) : ℕ × ℕ :=
  (min e.1 e.2, max e.1 e.2)

/-- Lexicographic row order used by `np.unique(..., axis=0)`. -/
def lexLe (a b : ℕ × ℕ) : Bool :=
  decide (a.1 < b.1) || (decide (a.1 = b.1) && decide (a.2 ≤ b.2))

/-- `np.unique(edges, axis=0)`: canonicalized rows, sorted lexicographically,
deduplicated. -/
def unique_edges (simplices : List (ℕ × ℕ × ℕ)) : List (ℕ × ℕ) :=
  (sortBy lexLe ((raw_edges simplices).map canonEdge)).dedup

/-- Comparator of edge lengths.  It tests squared lengths, which is the same
boolean as comparing `np.linalg.norm` values since `Real.sqrt` is monotone
(see `lenLe_iff_edgeLen_le`). -/
def lenLe (vertices : List (ℚ × ℚ)) (a b : ℕ × ℕ) : Bool :=
  decide (dist2 vertices a ≤ dist2 vertices b)

/-- Unique edges arranged in ascending length order (`np.argsort(distances)`). -/
def length_sorted (simplices : List (ℕ × ℕ × ℕ)) (vertices : List (ℚ × ℚ)) : List (ℕ × ℕ) :=
  sortBy (lenLe vertices) (unique_edges simplices)

/-- `edges[distances <= params.max_distance]`; the boolean
`0 ≤ m ∧ dist² ≤ m²` is the exact-arithmetic value of `dist ≤ m`. -/
def within_max (vertices : List (ℚ × ℚ)) (md : Option ℚ) (edges : List (ℕ × ℕ)) :
    List (ℕ × ℕ) :=
  match md with
  | none => edges
  | some m => edges.filter (fun e => decide (0 ≤ m) && decide (dist2 vertices e ≤ m ^ 2))

/-- Reject edges whose endpoints carry the same part label (utils.py 183-185). -/
def cross_part (parts : List ℤ) (edges : List (ℕ × ℕ)) : List (ℕ × ℕ) :=
  edges.filter (fun e => !(parts.getD e.1 0 == parts.getD e.2 0))

/-- Apply the orientation filter when both azimuth parameters are set
(utils.py 187-191); otherwise the edge list is passed through unchanged. -/
noncomputable def oriented (vertices : List (ℚ × ℚ)) (az tol : Option ℚ)
    (edges : List (ℕ × ℕ)) : List (ℕ × ℕ) :=
  match az, tol with
  | some a, some t =>
      mask_filter edges
        (filter_segments_orientation (vertices.map (fun v => ((v.1 : ℝ), (v.2 : ℝ)))) edges a t)
  | _, _ => edges

/-- The final filtered, length-sorted candidate edge list of `find_curves`. -/
noncomputable def candidate_edges (simplices : List (ℕ × ℕ × ℕ)) (vertices : List (ℚ × ℚ))
    (parts : List ℤ) (params : TrendLineDetectionParameters) : List (ℕ × ℕ) :=
  oriented vertices params.azimuth params.azimuth_tol
    (cross_part parts (within_max vertices params.max_distance (length_sorted simplices vertices)))

/-! ## Path Walker (`walk_edges`, utils.py 217-280) -/

/-- Incoming direction `np.diff(vertices[incoming, :], axis=0)`. -/
def inVecOf (vertices : List (ℚ × ℚ)) (incoming : ℕ × ℕ) : ℚ × ℚ :=
  vsub (vpos vertices incoming.2) (vpos vertices incoming.1)

/-- Candidate edges incident to the terminal point `t` having at least one
endpoint unvisited (`np.any(edges == incoming[1], axis=1) & np.any(mask[edges], axis=1)`). -/
def neighbour_edges (t : ℕ) (edges : List (ℕ × ℕ)) (mask : List Bool) : List (ℕ × ℕ) :=
  edges.filter (fun e =>
    (decide (e.1 = t) || decide (e.2 = t)) && (mask.getD e.1 false || mask.getD e.2 false))

/-- Outgoing candidate nodes `edges[neighbours][edges[neighbours] != incoming[1]]`:
the entries of the neighbour rows other than `t`, in row-major order. -/
def candidatesOf (t : ℕ) (edges : List (ℕ × ℕ)) (mask : List Bool) : List ℕ :=
  (neighbour_edges t edges mask).flatMap (fun e => [e.1, e.2].filter (fun c => !(decide (c = t))))

/-- Direction from the terminal point `t` to candidate node `c`. -/
def outVec (vertices : List (ℚ × ℚ)) (t c : ℕ) : ℚ × ℚ :=
  vsub (vpos vertices c) (vpos vertices t)

/-- Candidates whose direction has positive dot product with the incoming
direction (backward vectors removed, utils.py 259-265). -/
def forward_candidates (vertices : List (ℚ × ℚ)) (incoming : ℕ × ℕ)
    (edges : List (ℕ × ℕ)) (mask : List Bool) : List ℕ :=
  (candidatesOf incoming.2 edges mask).filter
    (fun c => decide (0 < dotQ (inVecOf vertices incoming) (outVec vertices incoming.2 c)))

/-- The walker score `angle ** (1 - damping) * vec_lengths` with
`angle = arccos(dot / (|in| * |out|) - 1e-10)` (utils.py 267-272). -/
noncomputable def stepScore (vertices : List (ℚ × ℚ)) (damping : ℚ) (incoming : ℕ × ℕ)
    (c : ℕ) : ℝ :=
  Real.arccos (((dotQ (inVecOf vertices incoming) (outVec vertices incoming.2 c) : ℚ) : ℝ) /
        (normV (inVecOf vertices incoming) * normV (outVec vertices incoming.2 c)) -
      1 / 10 ^ 10) ^
      ((1 : ℝ) - ((damping : ℚ) : ℝ)) *
    normV (outVec vertices incoming.2 c)

/-- `np.argmin` of the scores over the forward candidates (first minimum). -/
noncomputable def chooseCandidate (vertices : List (ℚ × ℚ)) (damping : ℚ)
    (incoming : ℕ × ℕ) (edges : List (ℕ × ℕ)) (mask : List Bool) : Option ℕ :=
  (forward_candidates vertices incoming edges mask).argmin (stepScore vertices damping incoming)

/-- The recursive walker (utils.py 217-280).  `fuel` bounds the recursion
depth; `find_curves` passes the number of points, which suffices because each
recursive step consumes one unvisited point (`walk_edges_fuel_stable`).  The
damping range check is performed on entry of every call, as in the source. -/
noncomputable def walk_edges : ℕ → List (ℕ × ℕ) → ℕ × ℕ → List (ℕ × ℕ) → List (ℚ × ℚ) →
    ℚ → List Bool → Except String (List (ℕ × ℕ) × List Bool)
  | 0, path, _, _, _, damping, mask =>
    if damping < 0 ∨ 1 < damping then .error "Damping must be between 0 and 1."
    else .ok (path, mask)
  | fuel + 1, path, incoming, edges, vertices, damping, mask =>
    if damping < 0 ∨ 1 < damping then .error "Damping must be between 0 and 1."
    else
      if neighbour_edges incoming.2 edges mask = [] then .ok (path, mask)
      else
        match chooseCandidate vertices damping incoming edges mask with
        | none => .ok (path, mask)
        | some c =>
          walk_edges fuel (path ++ [(incoming.2, c)]) (incoming.2, c) edges vertices damping
            (mask.set c false)

/-! ## Curve Assembler loop (find_curves, utils.py 193-214) -/

/-- Seeding an edge: mark both endpoints visited, walk forward from the edge,
then walk backward from the reversed edge. -/
noncomputable def seed_walk (edges : List (ℕ × ℕ)) (vertices : List (ℚ × ℚ)) (damping : ℚ)
    (e : ℕ × ℕ) (mask : List Bool) : Except String (List (ℕ × ℕ) × List Bool) :=
  bindE
    (walk_edges vertices.length [e] e edges vertices damping
      ((mask.set e.1 false).set e.2 false))
    (fun r => walk_edges vertices.length r.1 (e.2, e.1) edges vertices damping r.2)

/-- The seed loop of `find_curves`: iterate candidate edges in order, seed an
edge when `np.any(mask[edges[ind]])`, and keep paths with at least
`min_edges` edges. -/
noncomputable def walk_loop (edges : List (ℕ × ℕ)) (vertices : List (ℚ × ℚ)) (damping : ℚ)
    (minEdges : ℕ) : List (ℕ × ℕ) → List Bool → Except String (List (List (ℕ × ℕ)))
  | [], _ => .ok []
  | e :: rest, mask =>
    if mask.getD e.1 false || mask.getD e.2 false then
      bindE (seed_walk edges vertices damping e mask) (fun r =>
        bindE (walk_loop edges vertices damping minEdges rest r.2) (fun out =>
          .ok (if r.1.length < minEdges then out else r.1 :: out)))
    else walk_loop edges vertices damping minEdges rest mask

/-- `find_curves` (utils.py 144-214).  The Delaunay triangulation is an
external library call, so its simplex list is taken as an argument; the
source's `params=None` default is the `defaultParams` value. -/
noncomputable def find_curves (simplices : List (ℕ × ℕ × ℕ)) (vertices : List (ℚ × ℚ))
    (parts : List ℤ) (params : TrendLineDetectionParameters) :
    Except String (List (List (ℕ × ℕ))) :=
  let edges := candidate_edges simplices vertices parts params
  walk_loop edges vertices params.damping params.min_edges edges
    (List.replicate vertices.length true)

/-! ## Driver (`trend_lines/driver.py`, get_connections / make_curve) -/

/-- Integer comparator for `np.unique` over label values. -/
def intLe (a b : ℤ) : Bool := decide (a ≤ b)

/-- Index comparator for `np.unique` over point indices. -/
def natLe (a b : ℕ) : Bool := decide (a ≤ b)

/-- `np.unique` of a label array: ascending sorted distinct values. -/
def uniqueSorted (l : List ℤ) : List ℤ := (sortBy intLe l).dedup

/-- `np.where(labels == value)[0]`: ascending indices carrying `value`. -/
def idxWhere (labels : List ℤ) (v : ℤ) : List ℕ :=
  (List.range labels.length).filter (fun i => labels.getD i 0 == v)

/-- Drop the height column: `vertices[ind, :2]`. -/
def proj2 (p : ℚ × ℚ × ℚ) : ℚ × ℚ := (p.1, p.2.1)

/-- `out_labels[ind] = value`. -/
def setAll (l : List ℤ) (idx : List ℕ) (v : ℤ) : List ℤ :=
  idx.foldl (fun acc i => acc.set i v) l

/-- `vertices[ind, :2]` for the group of points labelled `v`. -/
def groupPts (vertices3 : List (ℚ × ℚ × ℚ)) (labels : List ℤ) (v : ℤ) : List (ℚ × ℚ) :=
  (idxWhere labels v).map (fun i => proj2 (vertices3.getD i (0, 0, 0)))

/-- `parts[ind]` for the group of points labelled `v`. -/
def groupParts (parts labels : List ℤ) (v : ℤ) : List ℤ :=
  (idxWhere labels v).map (fun i => parts.getD i 0)

/-- `ind[np.vstack(segments)].tolist()`: the group's path edges mapped back
to global point indices. -/
def globalEdges (labels : List ℤ) (v : ℤ) (segs : List (List (ℕ × ℕ))) : List (ℕ × ℕ) :=
  segs.flatten.map (fun e => ((idxWhere labels v).getD e.1 0, (idxWhere labels v).getD e.2 0))

/-- The label loop of `get_connections` (driver.py 90-107), accumulating the
global `path_list` and `out_labels`.  `tri` is the external triangulation
service invoked inside `find_curves` on each group's points. -/
noncomputable def connections_loop (tri : List (ℚ × ℚ) → List (ℕ × ℕ × ℕ))
    (vertices3 : List (ℚ × ℚ × ℚ)) (labels parts : List ℤ)
    (params : TrendLineDetectionParameters) :
    List ℤ → List (ℕ × ℕ) × List ℤ → Except String (List (ℕ × ℕ) × List ℤ)
  | [], st => .ok st
  | v :: rest, (pl, ol) =>
    if v = 0 then connections_loop tri vertices3 labels parts params rest (pl, ol)
    else if (idxWhere labels v).length < 2 then
      connections_loop tri vertices3 labels parts params rest (pl, ol)
    else
      bindE (find_curves (tri (groupPts vertices3 labels v)) (groupPts vertices3 labels v)
          (groupParts parts labels v) params) (fun segs =>
        if segs.any (fun p => !p.isEmpty) then
          connections_loop tri vertices3 labels parts params rest
            (pl ++ globalEdges labels v segs, setAll ol (idxWhere labels v) v)
        else connections_loop tri vertices3 labels parts params rest (pl, ol))

/-- `new_indices[i]` of the renumbering step (driver.py 112-120): the compact
output index for a used point, the fill value 1 otherwise. -/
def newIndex (uni : List ℕ) (i : ℕ) : ℕ :=
  if i ∈ uni then List.indexOf i uni else 1

/-- `TrendLinesDriver.get_connections` (driver.py 75-128). -/
noncomputable def get_connections (tri : List (ℚ × ℚ) → List (ℕ × ℕ × ℕ))
    (vertices3 : List (ℚ × ℚ × ℚ)) (labels parts : List ℤ)
    (params : TrendLineDetectionParameters) :
    Except String (List (ℚ × ℚ × ℚ) × Option (List (ℕ × ℕ)) × List ℤ) :=
  bindE
    (connections_loop tri vertices3 labels parts params (uniqueSorted labels)
      ([], List.replicate labels.length 0))
    (fun r =>
      if r.1.isEmpty then .ok (vertices3, none, r.2)
      else
        let uni := (sortBy natLe (r.1.flatMap (fun e => [e.1, e.2]))).dedup
        .ok (uni.map (fun i => vertices3.getD i (0, 0, 0)),
             some (r.1.map (fun e => (newIndex uni e.1, newIndex uni e.2))),
             uni.map (fun i => r.2.getD i 0)))

/-- `TrendLinesDriver.make_curve` (driver.py 43-73): when `get_connections`
returns a null cells array, log "No connections found." and return `None`
without creating a curve; otherwise hand the arrays to the workspace layer
(external) — modelled as returning them. -/
noncomputable def make_curve (tri : List (ℚ × ℚ) → List (ℕ × ℕ × ℕ))
    (vertices3 : List (ℚ × ℚ × ℚ)) (labels parts : List ℤ)
    (params : TrendLineDetectionParameters) :
    Except String (Option (List (ℚ × ℚ × ℚ) × List (ℕ × ℕ) × List ℤ)) :=
  bindE (get_connections tri vertices3 labels parts params) (fun r =>
    match r.2.1 with
    | none => .ok none
    | some cells => .ok (some (r.1, cells, r.2.2)))

/-! ## Structural lemmas about the walker -/

theorem mem_neighbour_edges {t : ℕ} {edges : List (ℕ × ℕ)} {mask : List Bool} {e : ℕ × ℕ}
    (h : e ∈ neighbour_edges t edges mask) :
    e ∈ edges ∧ (e.1 = t ∨ e.2 = t) ∧
      (mask.getD e.1 false = true ∨ mask.getD e.2 false = true) := by
  unfold neighbour_edges at h
  have h1 := List.mem_filter.1 h
  refine ⟨h1.1, ?_, ?_⟩
  · have := h1.2
    simp only [Bool.and_eq_true, Bool.or_eq_true, decide_eq_true_eq] at this
    exact this.1
  · have := h1.2
    simp only [Bool.and_eq_true, Bool.or_eq_true, decide_eq_true_eq] at this
    exact this.2

/-- Every outgoing candidate is the far endpoint of some candidate edge
incident to the terminal point, with one endpoint unvisited. -/
theorem mem_candidatesOf {t : ℕ} {edges : List (ℕ × ℕ)} {mask : List Bool} {c : ℕ}
    (h : c ∈ candidatesOf t edges mask) :
    ∃ e ∈ edges, ((e.1 = t ∧ e.2 = c) ∨ (e.2 = t ∧ e.1 = c)) ∧
      (mask.getD e.1 false = true ∨ mask.getD e.2 false = true) := by
  unfold candidatesOf at h
  rcases List.mem_flatMap.1 h with ⟨e, he, hc⟩
  have hne := mem_neighbour_edges he
  have hc' := List.mem_filter.1 hc
  have hct : c ≠ t := by simpa using hc'.2
  have hmem : c = e.1 ∨ c = e.2 := by
    have := hc'.1
    simp only [List.mem_cons, List.mem_singleton] at this
    tauto
  refine ⟨e, hne.1, ?_, hne.2.2⟩
  rcases hne.2.1 with h1 | h2
  · rcases hmem with rfl | rfl
    · exact absurd h1 hct
    · exact Or.inl ⟨h1, rfl⟩
  · rcases hmem with rfl | rfl
    · exact Or.inr ⟨h2, rfl⟩
    · exact absurd h2 hct

/-- When the terminal point is already visited, every outgoing candidate is
still unvisited (the "any endpoint unvisited" test then means the far
endpoint is unvisited). -/
theorem candidatesOf_unvisited {t : ℕ} {edges : List (ℕ × ℕ)} {mask : List Bool} {c : ℕ}
    (hm : mask.getD t false = false) (h : c ∈ candidatesOf t edges mask) :
    mask.getD c false = true := by
  rcases mem_candidatesOf h with ⟨e, _, hend, hvis⟩
  rcases hend with ⟨h1, h2⟩ | ⟨h1, h2⟩
  · subst h1; subst h2
    rcases hvis with hv | hv
    · rw [hm] at hv; exact absurd hv (by simp)
    · exact hv
  · subst h1; subst h2
    rcases hvis with hv | hv
    · exact hv
    · rw [hm] at hv; exact absurd hv (by simp)

theorem chooseCandidate_mem {vertices : List (ℚ × ℚ)} {damping : ℚ} {incoming : ℕ × ℕ}
    {edges : List (ℕ × ℕ)} {mask : List Bool} {c : ℕ}
    (h : chooseCandidate vertices damping incoming edges mask = some c) :
    c ∈ forward_candidates vertices incoming edges mask := by
  unfold chooseCandidate at h
  exact List.argmin_mem h

theorem forward_candidates_sub {vertices : List (ℚ × ℚ)} {incoming : ℕ × ℕ}
    {edges : List (ℕ × ℕ)} {mask : List Bool} {c : ℕ}
    (h : c ∈ forward_candidates vertices incoming edges mask) :
    c ∈ candidatesOf incoming.2 edges mask ∧
      0 < dotQ (inVecOf vertices incoming) (outVec vertices incoming.2 c) := by
  unfold forward_candidates at h
  have h' := List.mem_filter.1 h
  exact ⟨h'.1, by simpa using h'.2⟩

/-- Every edge appended by the walker is (up to orientation) an element of the
candidate edge list; hence any symmetric property of the candidate edges is
preserved along the walked path. -/
theorem walk_edges_path_invariant {Q : ℕ × ℕ → Prop}
    (hsym : ∀ a b, Q (a, b) → Q (b, a))
    {edges : List (ℕ × ℕ)} {vertices : List (ℚ × ℚ)} {damping : ℚ}
    (hE : ∀ e ∈ edges, Q e) :
    ∀ (fuel : ℕ) (path : List (ℕ × ℕ)) (incoming : ℕ × ℕ) (mask : List Bool)
      (out : List (ℕ × ℕ)) (mask' : List Bool),
      (∀ e ∈ path, Q e) →
      walk_edges fuel path incoming edges vertices damping mask = .ok (out, mask') →
      ∀ e ∈ out, Q e := by
  intro fuel
  induction fuel with
  | zero =>
    intro path incoming mask out mask' hpath hrun
    unfold walk_edges at hrun
    by_cases hd : damping < 0 ∨ 1 < damping
    · simp [hd] at hrun
    · simp only [hd, if_false] at hrun
      cases hrun
      exact hpath
  | succ n ih =>
    intro path incoming mask out mask' hpath hrun
    unfold walk_edges at hrun
    by_cases hd : damping < 0 ∨ 1 < damping
    · simp [hd] at hrun
    · simp only [hd, if_false] at hrun
      by_cases hn : neighbour_edges incoming.2 edges mask = []
      · simp only [hn, if_pos rfl] at hrun
        cases hrun
        exact hpath
      · simp only [if_neg hn] at hrun
        cases hcc : chooseCandidate vertices damping incoming edges mask with
        | none =>
          rw [hcc] at hrun
          cases hrun
          exact hpath
        | some c =>
          rw [hcc] at hrun
          refine ih _ _ _ _ _ ?_ hrun
          intro e he
          rcases List.mem_append.1 he with he | he
          · exact hpath e he
          · simp only [List.mem_singleton] at he
            subst he
            have hc := (forward_candidates_sub (chooseCandidate_mem hcc)).1
            rcases mem_candidatesOf hc with ⟨e', he', hend, _⟩
            rcases hend with ⟨h1, h2⟩ | ⟨h1, h2⟩
            · rw [← h1, ← h2]
              exact hE e' he'
            · rw [← h1, ← h2]
              exact hsym e'.1 e'.2 (hE e' he')

theorem mem_mask_filter : ∀ {xs : List α} {bs : List Bool} {a : α},
    a ∈ mask_filter xs bs → a ∈ xs := by
  intro xs
  induction xs with
  | nil => intro bs a h; simp [mask_filter] at h
  | cons x xs ih =>
    intro bs a h
    cases bs with
    | nil => simp [mask_filter] at h
    | cons b bs =>
      unfold mask_filter at h
      cases b with
      | false =>
        simp only [Bool.false_eq_true, if_false] at h
        exact List.mem_cons_of_mem _ (ih h)
      | true =>
        simp only [if_true] at h
        rcases List.mem_cons.1 h with rfl | h
        · exact List.mem_cons_self _ _
        · exact List.mem_cons_of_mem _ (ih h)

theorem mem_oriented {vertices : List (ℚ × ℚ)} {az tol : Option ℚ} {edges : List (ℕ × ℕ)}
    {e : ℕ × ℕ} (h : e ∈ oriented vertices az tol edges) : e ∈ edges := by
  unfold oriented at h
  cases az with
  | none => exact h
  | some a =>
    cases tol with
    | none => exact h
    | some t => exact mem_mask_filter h

theorem mem_cross_part {parts : List ℤ} {edges : List (ℕ × ℕ)} {e : ℕ × ℕ}
    (h : e ∈ cross_part parts edges) :
    e ∈ edges ∧ parts.getD e.1 0 ≠ parts.getD e.2 0 := by
  unfold cross_part at h
  have h' := List.mem_filter.1 h
  refine ⟨h'.1, ?_⟩
  have := h'.2
  simpa using this

/-- Every final candidate edge joins two points with different part labels
(utils.py 183-185 followed by order-preserving filters). -/
theorem candidate_edges_cross {simplices : List (ℕ × ℕ × ℕ)} {vertices : List (ℚ × ℚ)}
    {parts : List ℤ} {params : TrendLineDetectionParameters} {e : ℕ × ℕ}
    (h : e ∈ candidate_edges simplices vertices parts params) :
    parts.getD e.1 0 ≠ parts.getD e.2 0 := by
  unfold candidate_edges at h
  exact (mem_cross_part (mem_oriented h)).2

theorem seed_walk_invariant {Q : ℕ × ℕ → Prop} (hsym : ∀ a b, Q (a, b) → Q (b, a))
    {edges : List (ℕ × ℕ)} {vertices : List (ℚ × ℚ)} {damping : ℚ}
    (hE : ∀ e ∈ edges, Q e) {e : ℕ × ℕ} {mask : List Bool} {p : List (ℕ × ℕ)}
    {mask' : List Bool} (hQe : Q e)
    (h : seed_walk edges vertices damping e mask = .ok (p, mask')) :
    ∀ x ∈ p, Q x := by
  unfold seed_walk at h
  cases h1 : walk_edges vertices.length [e] e edges vertices damping
      ((mask.set e.1 false).set e.2 false) with
  | error s => rw [h1, bindE_error] at h; cases h
  | ok r =>
    rw [h1, bindE_ok] at h
    have hp1 : ∀ x ∈ r.1, Q x := by
      refine walk_edges_path_invariant hsym hE _ _ _ _ _ _ ?_ h1
      intro x hx
      simp only [List.mem_singleton] at hx
      subst hx
      exact hQe
    exact walk_edges_path_invariant hsym hE _ _ _ _ _ _ hp1 h

theorem walk_loop_invariant (Q : ℕ × ℕ → Prop) (hsym : ∀ a b, Q (a, b) → Q (b, a))
    {edges : List (ℕ × ℕ)} {vertices : List (ℚ × ℚ)} {damping : ℚ} {minEdges : ℕ}
    (hE : ∀ e ∈ edges, Q e) :
    ∀ (rest : List (ℕ × ℕ)) (mask : List Bool) (out : List (List (ℕ × ℕ))),
      (∀ e ∈ rest, Q e) →
      walk_loop edges vertices damping minEdges rest mask = .ok out →
      ∀ p ∈ out, ∀ x ∈ p, Q x := by
  intro rest
  induction rest with
  | nil =>
    intro mask out _ hrun
    unfold walk_loop at hrun
    cases hrun
    intro p hp
    simp at hp
  | cons e rest ih =>
    intro mask out hrest hrun
    unfold walk_loop at hrun
    by_cases hm : (mask.getD e.1 false || mask.getD e.2 false) = true
    · rw [if_pos hm] at hrun
      cases h1 : seed_walk edges vertices damping e mask with
      | error s => rw [h1, bindE_error] at hrun; cases hrun
      | ok r =>
        rw [h1, bindE_ok] at hrun
        cases h2 : walk_loop edges vertices damping minEdges rest r.2 with
        | error s => rw [h2, bindE_error] at hrun; cases hrun
        | ok out' =>
          rw [h2, bindE_ok] at hrun
          have hp : ∀ x ∈ r.1, Q x :=
            seed_walk_invariant hsym hE (hrest e (List.mem_cons_self _ _)) h1
          have hout' : ∀ q ∈ out', ∀ x ∈ q, Q x :=
            ih r.2 out' (fun x hx => hrest x (List.mem_cons_of_mem _ hx)) h2
          cases hrun
          by_cases hlen : r.1.length < minEdges
          · rw [if_pos hlen]
            exact hout'
          · rw [if_neg hlen]
            intro q hq
            rcases List.mem_cons.1 hq with rfl | hq
            · exact hp
            · exact hout' q hq
    · rw [if_neg hm] at hrun
      exact ih mask out (fun x hx => hrest x (List.mem_cons_of_mem _ hx)) hrun

/-! ## Concrete instance shared by several checks

Three non-collinear points `A=(0,0)`, `B=(10,0)`, `C=(9,10)` whose (unique)
Delaunay triangulation is the single triangle `(0,1,2)`, with part labels
`0, 1, 0`.  The candidate edges are `(0,1)` and `(1,2)` (edge `(0,2)` joins
two part-0 points); both walks stop immediately, so the run returns the two
paths `[(0,1)]` and `[(1,2)]`, which share point index 1. -/

def cexSimplices : List (ℕ × ℕ × ℕ) := [(0, 1, 2)]

def cexVertices : List (ℚ × ℚ) := [(0, 0), (10, 0), (9, 10)]

def cexParts : List ℤ := [0, 1, 0]

theorem cex_eval :
    find_curves cexSimplices cexVertices cexParts defaultParams = .ok [[(0, 1)], [(1, 2)]] := by
  norm_num [cexSimplices, cexVertices, cexParts, find_curves, candidate_edges, defaultParams,
    oriented, cross_part, within_max, length_sorted, unique_edges, raw_edges, canonEdge, lexLe,
    sortBy, insertSorted, List.dedup, lenLe, dist2, norm2, vsub, vpos, walk_loop, seed_walk,
    walk_edges, neighbour_edges, chooseCandidate, forward_candidates, candidatesOf, inVecOf,
    outVec, dotQ, List.set, List.argmin]

/-! ## Claims -/

/-- C1.  Every edge appearing in any path returned by `find_curves` has two
endpoints whose part labels differ: the seed edges come from the candidate
list, which rejects same-part edges, and every walker-appended edge is a
reoriented candidate edge. -/
theorem find_curves_edges_cross_parts (simplices : List (ℕ × ℕ × ℕ))
    (vertices : List (ℚ × ℚ)) (parts : List ℤ) (params : TrendLineDetectionParameters)
    (out : List (List (ℕ × ℕ)))
    (h : find_curves simplices vertices parts params = .ok out) :
    ∀ p ∈ out, ∀ e ∈ p, parts.getD e.1 0 ≠ parts.getD e.2 0 := by
  unfold find_curves at h
  refine walk_loop_invariant (fun e => parts.getD e.1 0 ≠ parts.getD e.2 0)
    ?_ ?_ _ _ _ ?_ h
  · intro a b hab
    exact hab.symm
  · intro e he
    exact candidate_edges_cross he
  · intro e he
    exact candidate_edges_cross he

/-- Witness for C1 at the concrete three-point instance. -/
theorem find_curves_edges_cross_parts_witness :
    find_curves cexSimplices cexVertices cexParts defaultParams = .ok [[(0, 1)], [(1, 2)]] ∧
      ∀ p ∈ [[(0, 1)], [(1, 2)]], ∀ e ∈ p,
        cexParts.getD e.1 0 ≠ cexParts.getD e.2 0 :=
  ⟨cex_eval,
    find_curves_edges_cross_parts cexSimplices cexVertices cexParts defaultParams _ cex_eval⟩

/-- C2, counterexample.  The seed loop of `find_curves` skips an edge only
when `np.any(mask[edges[ind]])` is false, i.e. only when BOTH endpoints are
already visited.  On the three-point instance the edge `(1, 2)` is seeded
although point 1 was consumed by the earlier path `[(0, 1)]`, so point index
1 appears as an endpoint of edges in two different returned paths. -/
theorem find_curves_shared_point_cex :
    find_curves cexSimplices cexVertices cexParts defaultParams = .ok [[(0, 1)], [(1, 2)]] ∧
      [(0, 1)] ∈ [[(0, 1)], [(1, 2)]] ∧ [(1, 2)] ∈ [[(0, 1)], [(1, 2)]] ∧
      ([(0, 1)] : List (ℕ × ℕ)) ≠ [(1, 2)] ∧
      (∃ e ∈ ([(0, 1)] : List (ℕ × ℕ)), e.1 = 1 ∨ e.2 = 1) ∧
      (∃ e ∈ ([(1, 2)] : List (ℕ × ℕ)), e.1 = 1 ∨ e.2 = 1) :=
  ⟨cex_eval, by decide, by decide, by decide, by decide, by decide⟩

/-- C2, amended.  A candidate edge is skipped by the seed loop exactly when
both of its endpoints are already visited; it is seeded (both endpoints
marked, bidirectional walk started) as soon as at least one endpoint is
still unvisited.  (Consequently a point index may appear in two different
returned paths, as `find_curves_shared_point_cex` shows.) -/
theorem walk_loop_skips_iff_both_visited (edges : List (ℕ × ℕ)) (vertices : List (ℚ × ℚ))
    (damping : ℚ) (minEdges : ℕ) (e : ℕ × ℕ) (rest : List (ℕ × ℕ)) (mask : List Bool) :
    (walk_loop edges vertices damping minEdges (e :: rest) mask =
        walk_loop edges vertices damping minEdges rest mask ∧
      mask.getD e.1 false = false ∧ mask.getD e.2 false = false) ∨
    (walk_loop edges vertices damping minEdges (e :: rest) mask =
        bindE (seed_walk edges vertices damping e mask) (fun r =>
          bindE (walk_loop edges vertices damping minEdges rest r.2) (fun out =>
            .ok (if r.1.length < minEdges then out else r.1 :: out))) ∧
      (mask.getD e.1 false = true ∨ mask.getD e.2 false = true)) := by
  by_cases hm : (mask.getD e.1 false || mask.getD e.2 false) = true
  · right
    constructor
    · conv_lhs => rw [walk_loop]
      rw [if_pos hm]
    · simpa using hm
  · left
    refine ⟨?_, ?_, ?_⟩
    · conv_lhs => rw [walk_loop]
      rw [if_neg hm]
    · simp only [Bool.or_eq_true, not_or, Bool.not_eq_true] at hm
      exact hm.1
    · simp only [Bool.or_eq_true, not_or, Bool.not_eq_true] at hm
      exact hm.2

/-- Parameters with an out-of-range damping: the pydantic model has no range
validator, so construction succeeds and the value is stored unchanged. -/
def badParams : TrendLineDetectionParameters := { damping := 2 }

/-- C4, counterexample.  Constructing the detection parameters with
`damping = 2` does not fail (the field is stored as given), and the range
error only surfaces inside `walk_edges` once the first seed edge of
`find_curves` is processed — as a `ValueError` raised mid-walk. -/
theorem damping_error_raised_mid_walk_cex :
    badParams.damping = 2 ∧
      find_curves cexSimplices cexVertices cexParts badParams =
        .error "Damping must be between 0 and 1." := by
  constructor
  · rfl
  · norm_num [cexSimplices, cexVertices, cexParts, find_curves, candidate_edges, badParams,
      oriented, cross_part, within_max, length_sorted, unique_edges, raw_edges, canonEdge, lexLe,
      sortBy, insertSorted, List.dedup, lenLe, dist2, norm2, vsub, vpos, walk_loop, seed_walk,
      walk_edges, neighbour_edges, chooseCandidate, forward_candidates, candidatesOf, inVecOf,
      outVec, dotQ, List.set, List.argmin]

/-- C4, amended.  A damping outside `[0, 1]` is not rejected when the
parameters are constructed; instead every call of `walk_edges` (at any
recursion depth, i.e. mid-walk) raises `ValueError("Damping must be between
0 and 1.")` before doing anything else. -/
theorem walk_edges_damping_range_error (fuel : ℕ) (path : List (ℕ × ℕ)) (incoming : ℕ × ℕ)
    (edges : List (ℕ × ℕ)) (vertices : List (ℚ × ℚ)) (damping : ℚ) (mask : List Bool)
    (h : damping < 0 ∨ 1 < damping) :
    walk_edges fuel path incoming edges vertices damping mask =
      .error "Damping must be between 0 and 1." := by
  cases fuel with
  | zero => unfold walk_edges; rw [if_pos h]
  | succ n => unfold walk_edges; rw [if_pos h]

/-- Witness for C4's amended statement at `damping = 2`. -/
theorem walk_edges_damping_range_error_witness :
    ((2 : ℚ) < 0 ∨ (1 : ℚ) < 2) ∧
      walk_edges 3 [] (0, 0) [] [] 2 [] = .error "Damping must be between 0 and 1." :=
  ⟨by norm_num, walk_edges_damping_range_error 3 [] (0, 0) [] [] 2 [] (by norm_num)⟩

/-- C5.  When the triangulation produces an empty simplex set (degenerate
input), `find_curves` returns an empty curve list and raises no error,
whatever the remaining inputs and parameters are. -/
theorem find_curves_empty_simplices (vertices : List (ℚ × ℚ)) (parts : List ℤ)
    (params : TrendLineDetectionParameters) :
    find_curves [] vertices parts params = .ok [] := by
  have hce : candidate_edges [] vertices parts params = [] := by
    unfold candidate_edges
    have h1 : length_sorted [] vertices = [] := rfl
    rw [h1]
    have h2 : within_max vertices params.max_distance [] = [] := by
      unfold within_max
      cases params.max_distance <;> rfl
    rw [h2]
    have h3 : cross_part parts [] = [] := rfl
    rw [h3]
    unfold oriented
    cases params.azimuth <;> cases params.azimuth_tol <;> rfl
  simp only [find_curves, hce]
  rfl

/-- C10.  If exactly one of `azimuth` and `azimuth_tol` is provided, the
`params.azimuth is not None and params.azimuth_tol is not None` guard fails,
so no orientation filter is applied at all: the run is identical to one with
neither parameter set, and no error is raised. -/
theorem find_curves_single_azimuth_param_ignored (simplices : List (ℕ × ℕ × ℕ))
    (vertices : List (ℚ × ℚ)) (parts : List ℤ) (a t damping : ℚ) (minEdges : ℕ)
    (md : Option ℚ) :
    find_curves simplices vertices parts
        ⟨some a, none, damping, minEdges, md⟩ =
      find_curves simplices vertices parts ⟨none, none, damping, minEdges, md⟩ ∧
    find_curves simplices vertices parts
        ⟨none, some t, damping, minEdges, md⟩ =
      find_curves simplices vertices parts ⟨none, none, damping, minEdges, md⟩ :=
  ⟨rfl, rfl⟩

/-! ## Termination of the walker (C9) -/

theorem count_true_set_false : ∀ (mask : List Bool) (c : ℕ),
    mask.getD c false = true → (mask.set c false).count true + 1 = mask.count true := by
  intro mask
  induction mask with
  | nil => intro c h; simp [List.getD] at h
  | cons b bs ih =>
    intro c h
    cases c with
    | zero =>
      rw [List.getD_cons_zero] at h
      subst h
      simp [List.count_cons]
    | succ c =>
      rw [List.getD_cons_succ] at h
      have := ih c h
      simp only [List.set, List.count_cons]
      omega

theorem getD_false_set_false : ∀ (mask : List Bool) (c t : ℕ),
    (t = c ∨ mask.getD t false = false) → (mask.set c false).getD t false = false := by
  intro mask
  induction mask with
  | nil => intro c t _; simp [List.getD]
  | cons b bs ih =>
    intro c t h
    cases c with
    | zero =>
      cases t with
      | zero => simp [List.set]
      | succ t =>
        simp only [List.set, List.getD_cons_succ]
        rcases h with h | h
        · exact absurd h (by omega)
        · rw [List.getD_cons_succ] at h
          exact h
    | succ c =>
      cases t with
      | zero =>
        simp only [List.set, List.getD_cons_zero]
        rcases h with h | h
        · exact absurd h (by omega)
        · rw [List.getD_cons_zero] at h
          exact h
      | succ t =>
        simp only [List.set, List.getD_cons_succ]
        refine ih c t ?_
        rcases h with h | h
        · exact Or.inl (by omega)
        · rw [List.getD_cons_succ] at h
          exact Or.inr h

theorem getD_false_of_count_zero : ∀ (mask : List Bool) (i : ℕ),
    mask.count true = 0 → mask.getD i false = false := by
  intro mask
  induction mask with
  | nil => intro i _; simp [List.getD]
  | cons b bs ih =>
    intro i h
    simp only [List.count_cons] at h
    cases b with
    | true => simp at h
    | false =>
      cases i with
      | zero => simp
      | succ i =>
        rw [List.getD_cons_succ]
        exact ih i (by omega)

theorem neighbour_edges_nil_of_count_zero {t : ℕ} {edges : List (ℕ × ℕ)} {mask : List Bool}
    (h : mask.count true = 0) : neighbour_edges t edges mask = [] := by
  unfold neighbour_edges
  rw [List.filter_eq_nil_iff]
  intro e _
  rw [getD_false_of_count_zero mask e.1 h, getD_false_of_count_zero mask e.2 h]
  simp

/-- With no unvisited point left, the walker returns at once (any fuel). -/
theorem walk_edges_count_zero {edges : List (ℕ × ℕ)} {vertices : List (ℚ × ℚ)} {damping : ℚ}
    (k : ℕ) (path : List (ℕ × ℕ)) (incoming : ℕ × ℕ) (mask : List Bool)
    (h : mask.count true = 0) :
    walk_edges k path incoming edges vertices damping mask =
      if damping < 0 ∨ 1 < damping then .error "Damping must be between 0 and 1."
      else .ok (path, mask) := by
  cases k with
  | zero => unfold walk_edges; rfl
  | succ n =>
    unfold walk_edges
    by_cases hd : damping < 0 ∨ 1 < damping
    · rw [if_pos hd, if_pos hd]
    · rw [if_neg hd, if_neg hd, neighbour_edges_nil_of_count_zero h, if_pos rfl]

/-- Any fuel at least the number of unvisited points yields the same result:
the recursion depth of `walk_edges` is bounded by the number of unvisited
points when the incoming terminal point is already visited. -/
theorem walk_edges_fuel_stable {edges : List (ℕ × ℕ)} {vertices : List (ℚ × ℚ)}
    {damping : ℚ} :
    ∀ (n m : ℕ) (path : List (ℕ × ℕ)) (incoming : ℕ × ℕ) (mask : List Bool),
      mask.getD incoming.2 false = false →
      mask.count true ≤ n → mask.count true ≤ m →
      walk_edges n path incoming edges vertices damping mask =
        walk_edges m path incoming edges vertices damping mask := by
  intro n
  induction n with
  | zero =>
    intro m path incoming mask _ h0 _
    have hc : mask.count true = 0 := Nat.le_zero.1 h0
    rw [walk_edges_count_zero 0 path incoming mask hc,
      walk_edges_count_zero m path incoming mask hc]
  | succ n ih =>
    intro m path incoming mask hterm hn hm
    by_cases hc : mask.count true = 0
    · rw [walk_edges_count_zero (n + 1) path incoming mask hc,
        walk_edges_count_zero m path incoming mask hc]
    · cases m with
      | zero => omega
      | succ m =>
        unfold walk_edges
        by_cases hd : damping < 0 ∨ 1 < damping
        · rw [if_pos hd, if_pos hd]
        · rw [if_neg hd, if_neg hd]
          by_cases hne : neighbour_edges incoming.2 edges mask = []
          · rw [if_pos hne, if_pos hne]
          · rw [if_neg hne, if_neg hne]
            cases hcc : chooseCandidate vertices damping incoming edges mask with
            | none => rfl
            | some c =>
              have hcmem := (forward_candidates_sub (chooseCandidate_mem hcc)).1
              have hcun : mask.getD c false = true := candidatesOf_unvisited hterm hcmem
              have hcount := count_true_set_false mask c hcun
              refine ih m _ (incoming.2, c) (mask.set c false) ?_ ?_ ?_
              · exact getD_false_set_false mask c c (Or.inl rfl)
              · omega
              · omega

/-- C9.  When the incoming edge's terminal point is already visited, every
recursive step of `walk_edges` consumes exactly one previously-unvisited
point (the chosen candidate), so the walk terminates with recursion depth
bounded by the number of unvisited points in the mask: any fuel of at least
that number gives the same result. -/
theorem walk_edges_terminates_in_unvisited_count (edges : List (ℕ × ℕ))
    (vertices : List (ℚ × ℚ)) (damping : ℚ) (path : List (ℕ × ℕ)) (incoming : ℕ × ℕ)
    (mask : List Bool) (hterm : mask.getD incoming.2 false = false) :
    (∀ c, chooseCandidate vertices damping incoming edges mask = some c →
        mask.getD c false = true ∧ (mask.set c false).count true + 1 = mask.count true) ∧
    (∀ n m, mask.count true ≤ n → mask.count true ≤ m →
        walk_edges n path incoming edges vertices damping mask =
          walk_edges m path incoming edges vertices damping mask) := by
  constructor
  · intro c hcc
    have hcmem := (forward_candidates_sub (chooseCandidate_mem hcc)).1
    have hcun : mask.getD c false = true := candidatesOf_unvisited hterm hcmem
    exact ⟨hcun, count_true_set_false mask c hcun⟩
  · intro n m hn hm
    exact walk_edges_fuel_stable n m path incoming mask hterm hn hm

/-- Witness for C9 on a concrete mask with one unvisited point and a visited
terminal. -/
theorem walk_edges_terminates_in_unvisited_count_witness :
    ([false, false, true] : List Bool).getD 1 false = false ∧
      ((∀ c, chooseCandidate [] 0 (0, 1) [] [false, false, true] = some c →
          ([false, false, true] : List Bool).getD c false = true ∧
            (([false, false, true] : List Bool).set c false).count true + 1 =
              ([false, false, true] : List Bool).count true) ∧
        (∀ n m, ([false, false, true] : List Bool).count true ≤ n →
            ([false, false, true] : List Bool).count true ≤ m →
            walk_edges n [] (0, 1) [] [] 0 [false, false, true] =
              walk_edges m [] (0, 1) [] [] 0 [false, false, true])) :=
  ⟨by decide,
    walk_edges_terminates_in_unvisited_count [] [] 0 [] (0, 1) [false, false, true] (by decide)⟩

/-! ## The walker's best-continuation selection (C3) -/

/-- At `damping = 1` the exponent `1 - damping` is `0`, so the score
degenerates to the candidate's length (`x ** 0 == 1` for every float the
guarded arccos can produce). -/
theorem stepScore_damping_one (vertices : List (ℚ × ℚ)) (incoming : ℕ × ℕ) (c : ℕ) :
    stepScore vertices 1 incoming c = normV (outVec vertices incoming.2 c) := by
  unfold stepScore
  norm_num [Real.rpow_zero]

theorem candidatesOf_nil_of_neighbours_nil {t : ℕ} {edges : List (ℕ × ℕ)} {mask : List Bool}
    (h : neighbour_edges t edges mask = []) : candidatesOf t edges mask = [] := by
  unfold candidatesOf
  rw [h]
  rfl

theorem forward_candidates_nil_of_candidates_nil {vertices : List (ℚ × ℚ)} {incoming : ℕ × ℕ}
    {edges : List (ℕ × ℕ)} {mask : List Bool}
    (h : candidatesOf incoming.2 edges mask = []) :
    forward_candidates vertices incoming edges mask = [] := by
  unfold forward_candidates
  rw [h]
  rfl

/-- C3.  One step of `walk_edges` with a visited terminal point: the
outgoing candidates are exactly the unvisited far endpoints of candidate
edges incident to the terminal point; every candidate with non-positive dot
product against the incoming direction is rejected; if no candidate has
positive dot product the walk stops without extending the path; otherwise
the appended continuation minimizes `angle^(1-damping) * length` over the
forward candidates — in particular, for `damping = 1` it has minimal
length. -/
theorem walk_edges_step_selection (vertices : List (ℚ × ℚ)) (edges : List (ℕ × ℕ))
    (damping : ℚ) (mask : List Bool) (incoming : ℕ × ℕ) (path : List (ℕ × ℕ)) (fuel : ℕ)
    (hd : 0 ≤ damping ∧ damping ≤ 1) (hterm : mask.getD incoming.2 false = false) :
    (∀ c ∈ candidatesOf incoming.2 edges mask,
        mask.getD c false = true ∧
          (c ∈ forward_candidates vertices incoming edges mask ↔
            0 < dotQ (inVecOf vertices incoming) (outVec vertices incoming.2 c))) ∧
    (forward_candidates vertices incoming edges mask = [] →
        walk_edges (fuel + 1) path incoming edges vertices damping mask = .ok (path, mask)) ∧
    (∀ c, chooseCandidate vertices damping incoming edges mask = some c →
        c ∈ forward_candidates vertices incoming edges mask ∧
          0 < dotQ (inVecOf vertices incoming) (outVec vertices incoming.2 c) ∧
          (∀ c' ∈ forward_candidates vertices incoming edges mask,
            stepScore vertices damping incoming c ≤ stepScore vertices damping incoming c') ∧
          (damping = 1 → ∀ c' ∈ forward_candidates vertices incoming edges mask,
            normV (outVec vertices incoming.2 c) ≤ normV (outVec vertices incoming.2 c')) ∧
          walk_edges (fuel + 1) path incoming edges vertices damping mask =
            walk_edges fuel (path ++ [(incoming.2, c)]) (incoming.2, c) edges vertices damping
              (mask.set c false)) := by
  have hdok : ¬(damping < 0 ∨ 1 < damping) := by
    push_neg
    exact hd
  refine ⟨?_, ?_, ?_⟩
  · intro c hc
    refine ⟨candidatesOf_unvisited hterm hc, ?_⟩
    unfold forward_candidates
    rw [List.mem_filter]
    constructor
    · intro h
      have := h.2
      simpa using this
    · intro h
      exact ⟨hc, by simpa using h⟩
  · intro hfwd
    have hnone : chooseCandidate vertices damping incoming edges mask = none := by
      unfold chooseCandidate
      rw [hfwd]
      rfl
    unfold walk_edges
    rw [if_neg hdok]
    by_cases hne : neighbour_edges incoming.2 edges mask = []
    · rw [if_pos hne]
    · rw [if_neg hne, hnone]
  · intro c hcc
    have hmemfwd := chooseCandidate_mem hcc
    have hdot := (forward_candidates_sub hmemfwd).2
    have hargmem : c ∈ (forward_candidates vertices incoming edges mask).argmin
        (stepScore vertices damping incoming) := by
      unfold chooseCandidate at hcc
      rw [hcc]
      rfl
    have hmin : ∀ c' ∈ forward_candidates vertices incoming edges mask,
        stepScore vertices damping incoming c ≤ stepScore vertices damping incoming c' := by
      intro c' hc'
      exact List.le_of_mem_argmin hc' hargmem
    refine ⟨hmemfwd, hdot, hmin, ?_, ?_⟩
    · intro hdamp c' hc'
      subst hdamp
      have := hmin c' hc'
      rwa [stepScore_damping_one, stepScore_damping_one] at this
    · have hne : ¬neighbour_edges incoming.2 edges mask = [] := by
        intro hne
        have h1 := @forward_candidates_nil_of_candidates_nil vertices incoming edges mask
          (candidatesOf_nil_of_neighbours_nil hne)
        unfold chooseCandidate at hcc
        rw [h1] at hcc
        cases hcc
      conv_lhs => rw [walk_edges]
      rw [if_neg hdok, if_neg hne, hcc]

/-- Witness for C3 at a concrete step: `damping = 1`, terminal point 1
already visited, one unvisited point. -/
theorem walk_edges_step_selection_witness :
    ((0 : ℚ) ≤ 1 ∧ (1 : ℚ) ≤ 1) ∧
      ([false, false, true] : List Bool).getD 1 false = false ∧
      ((∀ c ∈ candidatesOf 1 [(1, 2)] [false, false, true],
          ([false, false, true] : List Bool).getD c false = true ∧
            (c ∈ forward_candidates [(0, 0), (10, 0), (11, 0)] (0, 1) [(1, 2)]
                [false, false, true] ↔
              0 < dotQ (inVecOf [(0, 0), (10, 0), (11, 0)] (0, 1))
                  (outVec [(0, 0), (10, 0), (11, 0)] 1 c))) ∧
        (forward_candidates [(0, 0), (10, 0), (11, 0)] (0, 1) [(1, 2)]
            [false, false, true] = [] →
          walk_edges 1 [(0, 1)] (0, 1) [(1, 2)] [(0, 0), (10, 0), (11, 0)] 1
              [false, false, true] = .ok ([(0, 1)], [false, false, true])) ∧
        (∀ c, chooseCandidate [(0, 0), (10, 0), (11, 0)] 1 (0, 1) [(1, 2)]
              [false, false, true] = some c →
            c ∈ forward_candidates [(0, 0), (10, 0), (11, 0)] (0, 1) [(1, 2)]
                [false, false, true] ∧
              0 < dotQ (inVecOf [(0, 0), (10, 0), (11, 0)] (0, 1))
                  (outVec [(0, 0), (10, 0), (11, 0)] 1 c) ∧
              (∀ c' ∈ forward_candidates [(0, 0), (10, 0), (11, 0)] (0, 1) [(1, 2)]
                  [false, false, true],
                stepScore [(0, 0), (10, 0), (11, 0)] 1 (0, 1) c ≤
                  stepScore [(0, 0), (10, 0), (11, 0)] 1 (0, 1) c') ∧
              ((1 : ℚ) = 1 → ∀ c' ∈ forward_candidates [(0, 0), (10, 0), (11, 0)] (0, 1)
                  [(1, 2)] [false, false, true],
                normV (outVec [(0, 0), (10, 0), (11, 0)] 1 c) ≤
                  normV (outVec [(0, 0), (10, 0), (11, 0)] 1 c')) ∧
              walk_edges 1 [(0, 1)] (0, 1) [(1, 2)] [(0, 0), (10, 0), (11, 0)] 1
                  [false, false, true] =
                walk_edges 0 ([(0, 1)] ++ [(1, c)]) (1, c) [(1, 2)]
                  [(0, 0), (10, 0), (11, 0)] 1 (([false, false, true] : List Bool).set c false))) :=
  ⟨⟨by norm_num, by norm_num⟩, by decide,
    walk_edges_step_selection [(0, 0), (10, 0), (11, 0)] [(1, 2)] 1 [false, false, true]
      (0, 1) [(0, 1)] 0 ⟨by norm_num, by norm_num⟩ (by decide)⟩

/-! ## Edge Candidate Builder properties (C6) -/

theorem mask_filter_sublist : ∀ (xs : List α) (bs : List Bool), List.Sublist (mask_filter xs bs) xs := by
  intro xs
  induction xs with
  | nil => intro bs; simp [mask_filter]
  | cons x xs ih =>
    intro bs
    cases bs with
    | nil => simp [mask_filter]
    | cons b bs =>
      unfold mask_filter
      cases b with
      | false =>
        simp only [Bool.false_eq_true, if_false]
        exact (ih bs).cons x
      | true =>
        simp only [if_true]
        exact (ih bs).cons₂ x

theorem oriented_sublist (vertices : List (ℚ × ℚ)) (az tol : Option ℚ)
    (edges : List (ℕ × ℕ)) : List.Sublist (oriented vertices az tol edges) edges := by
  unfold oriented
  cases az with
  | none => exact List.Sublist.refl _
  | some a =>
    cases tol with
    | none => exact List.Sublist.refl _
    | some t => exact mask_filter_sublist _ _

theorem within_max_sublist (vertices : List (ℚ × ℚ)) (md : Option ℚ)
    (edges : List (ℕ × ℕ)) : List.Sublist (within_max vertices md edges) edges := by
  unfold within_max
  cases md with
  | none => exact List.Sublist.refl _
  | some m => exact List.filter_sublist _

theorem candidate_edges_sublist (simplices : List (ℕ × ℕ × ℕ)) (vertices : List (ℚ × ℚ))
    (parts : List ℤ) (params : TrendLineDetectionParameters) :
    List.Sublist (candidate_edges simplices vertices parts params) (length_sorted simplices vertices) := by
  unfold candidate_edges
  exact ((oriented_sublist _ _ _ _).trans (List.filter_sublist _)).trans
    (within_max_sublist _ _ _)

/-- Membership of the unique canonicalized edge set: exactly the sorted index
pairs of the edges contributed by some simplex. -/
theorem mem_unique_edges {simplices : List (ℕ × ℕ × ℕ)} {e : ℕ × ℕ} :
    e ∈ unique_edges simplices ↔
      ∃ s ∈ simplices, e = canonEdge (s.1, s.2.1) ∨ e = canonEdge (s.2.1, s.2.2) ∨
        e = canonEdge (s.1, s.2.2) := by
  unfold unique_edges
  rw [List.mem_dedup, mem_sortBy, List.mem_map]
  constructor
  · rintro ⟨r, hr, rfl⟩
    unfold raw_edges at hr
    rcases List.mem_append.1 hr with hr | hr
    · rcases List.mem_append.1 hr with hr | hr
      · rcases List.mem_map.1 hr with ⟨s, hs, rfl⟩
        exact ⟨s, hs, Or.inl rfl⟩
      · rcases List.mem_map.1 hr with ⟨s, hs, rfl⟩
        exact ⟨s, hs, Or.inr (Or.inl rfl)⟩
    · rcases List.mem_map.1 hr with ⟨s, hs, rfl⟩
      exact ⟨s, hs, Or.inr (Or.inr rfl)⟩
  · rintro ⟨s, hs, h⟩
    unfold raw_edges
    rcases h with rfl | rfl | rfl
    · exact ⟨(s.1, s.2.1),
        List.mem_append.2 (Or.inl (List.mem_append.2 (Or.inl
          (List.mem_map_of_mem _ hs)))), rfl⟩
    · exact ⟨(s.2.1, s.2.2),
        List.mem_append.2 (Or.inl (List.mem_append.2 (Or.inr
          (List.mem_map_of_mem _ hs)))), rfl⟩
    · exact ⟨(s.1, s.2.2),
        List.mem_append.2 (Or.inr (List.mem_map_of_mem _ hs)), rfl⟩

theorem canonEdge_le (e : ℕ × ℕ) : (canonEdge e).1 ≤ (canonEdge e).2 :=
  min_le_max

theorem length_sorted_pairwise (simplices : List (ℕ × ℕ × ℕ)) (vertices : List (ℚ × ℚ)) :
    (length_sorted simplices vertices).Pairwise
      (fun a b => edgeLen vertices a ≤ edgeLen vertices b) := by
  have htotal : ∀ a b, lenLe vertices a b = true ∨ lenLe vertices b a = true := by
    intro a b
    unfold lenLe
    rcases le_total (dist2 vertices a) (dist2 vertices b) with h' | h'
    · exact Or.inl (decide_eq_true h')
    · exact Or.inr (decide_eq_true h')
  have htrans : ∀ a b c, lenLe vertices a b = true → lenLe vertices b c = true →
      lenLe vertices a c = true := by
    intro a b c hab hbc
    unfold lenLe at *
    rw [decide_eq_true_eq] at hab hbc
    exact decide_eq_true (le_trans hab hbc)
  have h := sortBy_pairwise htotal htrans (unique_edges simplices)
  refine h.imp ?_
  intro a b hab
  unfold lenLe at hab
  rw [decide_eq_true_eq] at hab
  unfold edgeLen
  exact Real.sqrt_le_sqrt (by exact_mod_cast hab)

/-- C6.  The candidate edge list consists of the simplex edges canonicalized
as ascending index pairs and deduplicated; `np.argsort` arranges them in
ascending Euclidean length order, and the subsequent max-distance, same-part
and azimuth filters — all row-mask selections — preserve that order, which
is the order the seed loop processes. -/
theorem candidate_edges_spec (simplices : List (ℕ × ℕ × ℕ)) (vertices : List (ℚ × ℚ))
    (parts : List ℤ) (params : TrendLineDetectionParameters) :
    (∀ e, e ∈ length_sorted simplices vertices ↔
        ∃ s ∈ simplices, e = canonEdge (s.1, s.2.1) ∨ e = canonEdge (s.2.1, s.2.2) ∨
          e = canonEdge (s.1, s.2.2)) ∧
    (length_sorted simplices vertices).Nodup ∧
    (candidate_edges simplices vertices parts params).Nodup ∧
    (∀ e ∈ candidate_edges simplices vertices parts params,
        e.1 ≤ e.2 ∧ ∃ s ∈ simplices, e = canonEdge (s.1, s.2.1) ∨
          e = canonEdge (s.2.1, s.2.2) ∨ e = canonEdge (s.1, s.2.2)) ∧
    (length_sorted simplices vertices).Pairwise
      (fun a b => edgeLen vertices a ≤ edgeLen vertices b) ∧
    (candidate_edges simplices vertices parts params).Pairwise
      (fun a b => edgeLen vertices a ≤ edgeLen vertices b) := by
  have hmem : ∀ e, e ∈ length_sorted simplices vertices ↔
      ∃ s ∈ simplices, e = canonEdge (s.1, s.2.1) ∨ e = canonEdge (s.2.1, s.2.2) ∨
        e = canonEdge (s.1, s.2.2) := by
    intro e
    unfold length_sorted
    rw [mem_sortBy, mem_unique_edges]
  have hnodup : (length_sorted simplices vertices).Nodup := by
    unfold length_sorted
    exact (sortBy_perm _ _).nodup_iff.2 (List.nodup_dedup _)
  have hsub := candidate_edges_sublist simplices vertices parts params
  have hpw := length_sorted_pairwise simplices vertices
  refine ⟨hmem, hnodup, hsub.nodup hnodup, ?_, hpw, hpw.sublist hsub⟩
  intro e he
  have he' := hsub.subset he
  have h2 := (hmem e).1 he'
  refine ⟨?_, h2⟩
  rcases h2 with ⟨s, _, h | h | h⟩ <;> (subst h; exact canonEdge_le _)

/-! ## Driver behavior with zero total paths (C8) -/

theorem globalEdges_ne_nil {labels : List ℤ} {v : ℤ} {segs : List (List (ℕ × ℕ))}
    (h : segs.any (fun p => !p.isEmpty) = true) : globalEdges labels v segs ≠ [] := by
  rcases List.any_eq_true.1 h with ⟨p, hp, hne⟩
  have hpne : p ≠ [] := by
    intro hnil
    subst hnil
    simp at hne
  rcases List.exists_mem_of_ne_nil p hpne with ⟨x, hx⟩
  have hxf : x ∈ segs.flatten := List.mem_flatten.2 ⟨p, hp, hx⟩
  intro hnil
  unfold globalEdges at hnil
  rw [List.map_eq_nil_iff] at hnil
  rw [hnil] at hxf
  simp at hxf

/-- State evolution of the label loop: the accumulated `path_list` only
grows, and on a run where it does not grow, `out_labels` is untouched. -/
theorem connections_loop_state {tri : List (ℚ × ℚ) → List (ℕ × ℕ × ℕ)}
    {vertices3 : List (ℚ × ℚ × ℚ)} {labels parts : List ℤ}
    {params : TrendLineDetectionParameters} :
    ∀ (values : List ℤ) (pl : List (ℕ × ℕ)) (ol : List ℤ) (r : List (ℕ × ℕ) × List ℤ),
      connections_loop tri vertices3 labels parts params values (pl, ol) = .ok r →
      (∃ t, r.1 = pl ++ t) ∧ (r.1 = pl → r.2 = ol) := by
  intro values
  induction values with
  | nil =>
    intro pl ol r h
    unfold connections_loop at h
    cases h
    exact ⟨⟨[], by simp⟩, fun _ => rfl⟩
  | cons v rest ih =>
    intro pl ol r h
    unfold connections_loop at h
    by_cases hv : v = 0
    · rw [if_pos hv] at h
      exact ih pl ol r h
    · rw [if_neg hv] at h
      by_cases hlen : (idxWhere labels v).length < 2
      · rw [if_pos hlen] at h
        exact ih pl ol r h
      · rw [if_neg hlen] at h
        cases hf : find_curves (tri (groupPts vertices3 labels v)) (groupPts vertices3 labels v)
            (groupParts parts labels v) params with
        | error s => rw [hf, bindE_error] at h; cases h
        | ok segs =>
          rw [hf, bindE_ok] at h
          by_cases hany : segs.any (fun p => !p.isEmpty) = true
          · rw [if_pos hany] at h
            rcases ih _ _ _ h with ⟨⟨t, ht⟩, _⟩
            constructor
            · exact ⟨globalEdges labels v segs ++ t, by rw [ht, List.append_assoc]⟩
            · intro heq
              exfalso
              have hne := @globalEdges_ne_nil labels v segs hany
              have : pl.length = pl.length + (globalEdges labels v segs).length + t.length := by
                calc pl.length = r.1.length := by rw [heq]
                _ = pl.length + (globalEdges labels v segs).length + t.length := by
                    rw [ht]; simp [List.length_append]; omega
              have hlen0 : (globalEdges labels v segs).length = 0 := by omega
              exact hne (List.length_eq_zero.1 hlen0)
          · rw [if_neg hany] at h
            exact ih pl ol r h

/-- C8.  If the whole connection operation yields zero total paths,
`get_connections` returns the original vertex array unchanged, a `None`
cells result, and the all-zero label array; `make_curve` then reports "No
connections found." and returns `None` without creating a curve and without
raising. -/
theorem get_connections_no_paths (tri : List (ℚ × ℚ) → List (ℕ × ℕ × ℕ))
    (vertices3 : List (ℚ × ℚ × ℚ)) (labels parts : List ℤ)
    (params : TrendLineDetectionParameters) (ol : List ℤ)
    (h : connections_loop tri vertices3 labels parts params (uniqueSorted labels)
        ([], List.replicate labels.length 0) = .ok ([], ol)) :
    get_connections tri vertices3 labels parts params =
        .ok (vertices3, none, List.replicate labels.length 0) ∧
      ol = List.replicate labels.length 0 ∧
      make_curve tri vertices3 labels parts params = .ok none := by
  have hol : ol = List.replicate labels.length 0 := by
    have := (connections_loop_state _ _ _ _ h).2
    exact this rfl
  subst hol
  have hgc : get_connections tri vertices3 labels parts params =
      .ok (vertices3, none, List.replicate labels.length 0) := by
    unfold get_connections
    rw [h, bindE_ok]
    rfl
  refine ⟨hgc, rfl, ?_⟩
  unfold make_curve
  rw [hgc, bindE_ok]

/-- Concrete zero-path instance: two points with the same label whose
(degenerate) triangulation is empty; `find_curves` returns no paths. -/
theorem c8_loop_eval :
    connections_loop (fun _ => []) [(0, 0, 0), (1, 0, 0)] [1, 1] [0, 1] defaultParams
        (uniqueSorted [1, 1]) ([], List.replicate ([1, 1] : List ℤ).length 0) =
      .ok ([], [0, 0]) := by
  have h1 : uniqueSorted [1, 1] = [1] := by
    norm_num [uniqueSorted, sortBy, insertSorted, intLe, List.dedup]
  rw [h1]
  have h2 : idxWhere [1, 1] 1 = [0, 1] := by
    norm_num [idxWhere, List.range_succ]
  unfold connections_loop
  rw [if_neg (by norm_num), if_neg (by rw [h2]; norm_num)]
  rw [find_curves_empty_simplices]
  rw [bindE_ok]
  norm_num [connections_loop, List.replicate]

/-- Witness for C8 at the concrete zero-path instance. -/
theorem get_connections_no_paths_witness :
    (connections_loop (fun _ => []) [(0, 0, 0), (1, 0, 0)] [1, 1] [0, 1] defaultParams
        (uniqueSorted [1, 1]) ([], List.replicate ([1, 1] : List ℤ).length 0) =
      .ok ([], [0, 0])) ∧
      (get_connections (fun _ => []) [(0, 0, 0), (1, 0, 0)] [1, 1] [0, 1] defaultParams =
          .ok ([(0, 0, 0), (1, 0, 0)], none, List.replicate ([1, 1] : List ℤ).length 0) ∧
        ([0, 0] : List ℤ) = List.replicate ([1, 1] : List ℤ).length 0 ∧
        make_curve (fun _ => []) [(0, 0, 0), (1, 0, 0)] [1, 1] [0, 1] defaultParams =
          .ok none) :=
  ⟨c8_loop_eval,
    get_connections_no_paths (fun _ => []) [(0, 0, 0), (1, 0, 0)] [1, 1] [0, 1] defaultParams
      [0, 0] c8_loop_eval⟩

/-! ## Orientation filter scenario (C7)

Sixteen points arranged radially around a center point at angles
`0°, 22.5°, …, 337.5°` clockwise from north, each spoke edge running from
the center (index 0) to a rim point (index `k+1`). -/

/-- Rim points `(sin θ, cos θ)` at `θ = 22.5·k` degrees, preceded by the
center `(0, 0)`. -/
noncomputable def radialPts : List (ℝ × ℝ) :=
  (0, 0) :: (List.range 16).map
    (fun (k : ℕ) => (Real.sin (deg2rad (22.5 * (k : ℝ))), Real.cos (deg2rad (22.5 * (k : ℝ)))))

/-- The sixteen spoke edges `(0, k+1)`. -/
def radialSegs : List (ℕ × ℕ) := (List.range 16).map (fun k => (0, k + 1))

/-- Angle, in degrees, between spoke `k` and north: `22.5·k` folded into
`[0°, 180°]`. -/
noncomputable def angDeg (k : ℕ) : ℝ := if k ≤ 8 then 22.5 * k else 360 - 22.5 * k

theorem deg2rad_nonneg {a : ℝ} (h : 0 ≤ a) : 0 ≤ deg2rad a := by
  unfold deg2rad
  positivity

theorem deg2rad_mono {a b : ℝ} (h : a ≤ b) : deg2rad a ≤ deg2rad b := by
  unfold deg2rad
  rw [mul_div_assoc, mul_div_assoc]
  exact mul_le_mul_of_nonneg_right h (by positivity)

theorem deg2rad_180 : deg2rad 180 = Real.pi := by
  unfold deg2rad
  field_simp

theorem deg2rad_360 : deg2rad 360 = 2 * Real.pi := by
  unfold deg2rad
  field_simp
  ring

theorem deg2rad_sub_pi (a : ℝ) : deg2rad a - Real.pi = deg2rad (a - 180) := by
  unfold deg2rad
  field_simp
  ring

theorem abs_deg2rad_lt {a b : ℝ} : |deg2rad a| < deg2rad b ↔ |a| < b := by
  unfold deg2rad
  rw [mul_div_assoc, mul_div_assoc, abs_mul,
    abs_of_nonneg (by positivity : (0:ℝ) ≤ Real.pi / 180)]
  exact mul_lt_mul_right (by positivity)

theorem arccos_cos_deg {x : ℝ} (h0 : 0 ≤ x) (h1 : x ≤ 180) :
    Real.arccos (Real.cos (deg2rad x)) = deg2rad x :=
  Real.arccos_cos (deg2rad_nonneg h0) (deg2rad_180 ▸ deg2rad_mono h1)

theorem arccos_cos_deg_high {x : ℝ} (h0 : 180 ≤ x) (h1 : x ≤ 360) :
    Real.arccos (Real.cos (deg2rad x)) = deg2rad (360 - x) := by
  have hcos : Real.cos (deg2rad x) = Real.cos (deg2rad (360 - x)) := by
    have h := Real.cos_two_pi_sub (deg2rad (360 - x))
    rw [← h]
    congr 1
    rw [← deg2rad_360]
    unfold deg2rad
    ring
  rw [hcos]
  exact arccos_cos_deg (by linarith) (by linarith)

theorem segDir_radial (k : ℕ) (hk : k < 16) :
    segDir radialPts (0, k + 1) =
      (Real.sin (deg2rad (22.5 * k)), Real.cos (deg2rad (22.5 * k))) := by
  unfold segDir rpos radialPts
  rw [List.getD_cons_succ, List.getD_cons_zero]
  have hlen : k < ((List.range 16).map
      (fun (k : ℕ) =>
        ((Real.sin (deg2rad (22.5 * (k : ℝ))), Real.cos (deg2rad (22.5 * (k : ℝ)))) : ℝ × ℝ))).length := by
    simpa using hk
  rw [List.getD_eq_getElem _ _ hlen]
  rw [List.getElem_map]
  rw [List.getElem_range]
  norm_num

theorem segAngle_radial (k : ℕ) (hk : k < 16) :
    segAngle radialPts (0, k + 1) 0 = Real.arccos (Real.cos (deg2rad (22.5 * k))) := by
  unfold segAngle
  rw [segDir_radial k hk]
  have h0 : deg2rad (((0 : ℚ) : ℝ)) = 0 := by
    unfold deg2rad
    norm_num
  rw [h0, Real.sin_zero, Real.cos_zero]
  rw [Real.sin_sq_add_cos_sq, Real.sqrt_one]
  norm_num

theorem segAngle_radial_deg (k : ℕ) (hk : k < 16) :
    segAngle radialPts (0, k + 1) 0 = deg2rad (angDeg k) := by
  rw [segAngle_radial k hk]
  unfold angDeg
  by_cases h8 : k ≤ 8
  · rw [if_pos h8]
    have hk8 : (k : ℝ) ≤ 8 := by exact_mod_cast h8
    exact arccos_cos_deg (by positivity) (by nlinarith)
  · rw [if_neg h8]
    have h9 : (9 : ℝ) ≤ k := by exact_mod_cast (by omega : 9 ≤ k)
    have h15 : (k : ℝ) ≤ 15 := by exact_mod_cast (by omega : k ≤ 15)
    exact arccos_cos_deg_high (by nlinarith) (by nlinarith)

theorem segKeep_radial_iff (k : ℕ) (hk : k < 16) (tol : ℚ) :
    segKeep radialPts (0, k + 1) 0 tol ↔
      (|angDeg k| < ((tol : ℚ) : ℝ) ∨ |angDeg k - 180| < ((tol : ℚ) : ℝ)) := by
  unfold segKeep
  rw [segAngle_radial_deg k hk, deg2rad_sub_pi, abs_deg2rad_lt, abs_deg2rad_lt]

theorem filter_radial (tol : ℚ) :
    filter_segments_orientation radialPts radialSegs 0 tol =
      (List.range 16).map (fun k => pdec (segKeep radialPts (0, k + 1) 0 tol)) := by
  unfold filter_segments_orientation radialSegs
  rw [List.map_map]
  rfl

/-- C7.  The orientation filter keeps exactly those edges whose direction
makes an angle within the tolerance of 0° or of 180° with the unit vector at
the target azimuth; on the 16 radial spokes with azimuth 0°, tolerance 0.1°
keeps exactly the two spokes at 0° and 180°, and tolerance 30° keeps exactly
the six spokes at 0°, 22.5°, 157.5°, 180°, 202.5° and 337.5°. -/
theorem filter_segments_orientation_spec :
    (∀ (vertices : List (ℝ × ℝ)) (e : ℕ × ℕ) (az tol : ℚ),
        segKeep vertices e az tol ↔
          |segAngle vertices e az| < deg2rad ((tol : ℚ) : ℝ) ∨
            |segAngle vertices e az - Real.pi| < deg2rad ((tol : ℚ) : ℝ)) ∧
    filter_segments_orientation radialPts radialSegs 0 (1 / 10) =
      [true, false, false, false, false, false, false, false,
       true, false, false, false, false, false, false, false] ∧
    filter_segments_orientation radialPts radialSegs 0 30 =
      [true, true, false, false, false, false, false, true,
       true, true, false, false, false, false, false, true] := by
  refine ⟨fun vertices e az tol => Iff.rfl, ?_, ?_⟩
  · rw [filter_radial, (by decide : List.range 16 = [0,1,2,3,4,5,6,7,8,9,10,11,12,13,14,15])]
    simp only [List.map_cons, List.map_nil]
    refine List.ext_getElem (by simp) ?_
    intro i hi hj
    simp only [List.length_cons, List.length_nil] at hi
    interval_cases i <;>
      simp only [List.getElem_cons_zero, List.getElem_cons_succ] <;>
      first
        | exact pdec_true ((segKeep_radial_iff _ (by norm_num) _).2 (by norm_num [angDeg, abs_lt]))
        | exact pdec_false (fun hK =>
            absurd ((segKeep_radial_iff _ (by norm_num) _).1 hK) (by norm_num [angDeg, abs_lt]))
  · rw [filter_radial, (by decide : List.range 16 = [0,1,2,3,4,5,6,7,8,9,10,11,12,13,14,15])]
    simp only [List.map_cons, List.map_nil]
    refine List.ext_getElem (by simp) ?_
    intro i hi hj
    simp only [List.length_cons, List.length_nil] at hi
    interval_cases i <;>
      simp only [List.getElem_cons_zero, List.getElem_cons_succ] <;>
      first
        | exact pdec_true ((segKeep_radial_iff _ (by norm_num) _).2 (by norm_num [angDeg, abs_lt]))
        | exact pdec_false (fun hK =>
            absurd ((segKeep_radial_iff _ (by norm_num) _).1 hK) (by norm_num [angDeg, abs_lt]))

end CurveApps
